import Mathlib

/-!  Verification of the dominoes rules engine (`domino.py`): tiles and the
generated tile universe, the table placement engine, players and the game
turn machinery.  Machine state is embedded as explicit state passing; each
fallible Python operation returns its error alongside the state it left
behind, so that atomicity of rejected operations is a provable property
rather than a modelling artifact.  -/

structure Tile where
  left : Nat
  right : Nat
deriving DecidableEq, Repr

instance : Inhabited Tile := ⟨⟨1, 1⟩⟩

/-- `Tile.__init__`: pip values outside `[1, 6]` are rejected with a
`ValueError`; otherwise the tile stores the pair as given. -/
def Tile.make (left right : Nat) : Except String Tile :=
  if left < 1 || left > 6 || right < 1 || right > 6 then
    .error "Domino tiles must have values between 1 and 6"
  else
    .ok ⟨left, right⟩

/-- `Tile.__eq__` against another `Tile`: componentwise comparison of the
current orientation. -/
def tileEq (a b : Tile) : Bool :=
  a.left == b.left && a.right == b.right

/-- `Tile.__eq__` against a plain two-element tuple: orientation independent. -/
def tileEqPair (a : Tile) (p : Nat × Nat) : Bool :=
  (a.left == p.1 && a.right == p.2) || (a.left == p.2 && a.right == p.1)

/-- `Tile.__hash__` hashes the ordered pair `(left, right)`; tuple hashing is
injective on these small pip pairs, so hash equality is embedded as equality
of the hashed key. -/
def Tile.hashKey (t : Tile) : Nat × Nat := (t.left, t.right)

/-- `Tile.rotate`: swap the two pips in place. -/
def Tile.rotate (t : Tile) : Tile := ⟨t.right, t.left⟩

/-- `Tile.is_double`. -/
def Tile.is_double (t : Tile) : Bool := t.left == t.right

/-- The module-level `DOMINO_SET` generator expression,
`Tile(left, right) for left in range(7) for right in range(left, 7)`,
run through the validating constructor in generation order; the `frozenset`
raises as soon as one constructor call raises. -/
def dominoSetGen : Except String (List Tile) :=
  ((List.range 7).flatMap fun l => (List.range' l (7 - l)).map fun r => (l, r)).mapM
    fun p => Tile.make p.1 p.2

/-- Modelled from the spec: `DOMINO_SET` as it is described, "the 28 tiles
formed by all unordered pairs of pips in [0,6]".  The source generator feeds
pip 0 to the validating constructor and therefore fails, so the described
universe is reconstructed here from the spec wording, one tile per
unordered pair `l ≤ r ≤ 6`. -/
def intendedDominoSet : Finset Tile :=
  ((Finset.range 7 ×ˢ Finset.range 7).filter fun p => p.1 ≤ p.2).image
    fun p => ⟨p.1, p.2⟩

structure Table where
  tiles : List Tile
  value_counts : List Nat
deriving DecidableEq, Repr

/-- `Table.__init__`: empty deque, seven zero counters. -/
def Table.empty : Table := ⟨[], List.replicate 7 0⟩

/-- `Table.is_empty`. -/
def Table.is_empty (T : Table) : Bool := T.tiles.isEmpty

/-- `Table.left_end`: first tile's left pip, `None` on an empty table. -/
def Table.left_end (T : Table) : Option Nat := T.tiles.head?.map Tile.left

/-- `Table.right_end`: last tile's right pip, `None` on an empty table. -/
def Table.right_end (T : Table) : Option Nat := T.tiles.getLast?.map Tile.right

/-- `Table.is_blocked`.  On an empty table both ends are `None`, the
ends-unequal early return is not taken, and `_value_counts[None]` is a
`TypeError`, embedded as `none`. -/
def Table.is_blocked (T : Table) : Option Bool :=
  if T.left_end ≠ T.right_end then some false
  else
    match T.left_end with
    | none => none
    | some v => some (T.value_counts.getD v 0 == 8)

/-- `Table.can_play_left`: a pip matches the left end.  On an empty table the
end is `None` and a Python `int` never equals `None`, so this is false. -/
def Table.can_play_left (T : Table) (t : Tile) : Bool :=
  match T.left_end with
  | none => false
  | some e => t.left == e || t.right == e

/-- `Table.can_play_right`. -/
def Table.can_play_right (T : Table) (t : Tile) : Bool :=
  match T.right_end with
  | none => false
  | some e => t.left == e || t.right == e

/-- `Table.can_play`. -/
def Table.can_play (T : Table) (t : Tile) : Bool :=
  T.can_play_left t || T.can_play_right t

/-- `self._value_counts[v] += 1` (every placed tile carries pips in `[1, 6]`,
inside the bounds of the seven-slot array). -/
def bumpCount (c : List Nat) (v : Nat) : List Nat :=
  c.set v (c.getD v 0 + 1)

inductive PlaceErr where
  | invalid
  | ambiguous
deriving DecidableEq, Repr

/-- `Table._add_left`: validate, orient the tile so that its right pip
touches the old left end, prepend it and count both of its pips.  The raise
precedes every mutation, so the error case hands back the table and the
tile exactly as received. -/
def Table.addLeft (T : Table) (t : Tile) : Except PlaceErr Unit × Table × Tile :=
  if !(T.can_play_left t) then (.error .invalid, T, t)
  else
    let t2 := if some t.right == T.left_end then t else t.rotate
    (.ok (), ⟨t2 :: T.tiles, bumpCount (bumpCount T.value_counts t2.left) t2.right⟩, t2)

/-- `Table._add_right`: mirror image of `_add_left`, appending. -/
def Table.addRight (T : Table) (t : Tile) : Except PlaceErr Unit × Table × Tile :=
  if !(T.can_play_right t) then (.error .invalid, T, t)
  else
    let t2 := if some t.left == T.right_end then t else t.rotate
    (.ok (), ⟨T.tiles ++ [t2], bumpCount (bumpCount T.value_counts t2.left) t2.right⟩, t2)

inductive Side where
  | left
  | right
deriving DecidableEq, Repr

/-- `Table.add_tile` (`side=None` is `none`; the `ValueError` guard on a
malformed side string is ruled out by the `Side` type).  An empty table
takes the tile as given without touching the counters; an explicit side
goes to that end only; otherwise a playable-on-both-ends non-double is
ambiguous, and the fallback tries the left end first, then the right. -/
def Table.add_tile (T : Table) (t : Tile) (side : Option Side) :
    Except PlaceErr Unit × Table × Tile :=
  if T.tiles.isEmpty then (.ok (), ⟨T.tiles ++ [t], T.value_counts⟩, t)
  else
    match side with
    | some .left => T.addLeft t
    | some .right => T.addRight t
    | none =>
      if !t.is_double && T.can_play_left t && T.can_play_right t then
        (.error .ambiguous, T, t)
      else
        match T.addLeft t with
        | (.ok _, T2, t2) => (.ok (), T2, t2)
        | (.error _, _, _) => T.addRight t

structure Player where
  name : String
  hand : List Tile
deriving DecidableEq, Repr

instance : Inhabited Player := ⟨⟨"", []⟩⟩

/-- `Player.score`: sum of both pips over the hand. -/
def Player.score (p : Player) : Nat :=
  (p.hand.map fun t => t.left + t.right).sum

/-- `set.add` on a hand: a no-op when an equal tile is already present. -/
def handAdd (h : List Tile) (t : Tile) : List Tile :=
  if h.any fun x => tileEq x t then h else h ++ [t]

/-- `set.remove` of the played tile: the hand loses the element equal to the
tile the player offered (the very object that was placed). -/
def handRemove (h : List Tile) (t : Tile) : List Tile :=
  h.eraseP fun x => tileEq x t

/-- `min(self.players, key=lambda player: player.score)`: Python's `min`
keeps the earliest element whose key no later element strictly beats. -/
def minBy : List Player → Player → Player
  | [], best => best
  | p :: rest, best => minBy rest (if p.score < best.score then p else best)

/-- `min` over a player list; `none` embeds the `ValueError` on an empty
sequence. -/
def minScorePlayer : List Player → Option Player
  | [] => none
  | p :: rest => some (minBy rest p)

structure Game where
  players : List Player
  table : Table
  stock : List Tile
  first_player : Option Nat
  turn : Nat
deriving DecidableEq, Repr

inductive GameErr where
  | notStarted
  | notInHand
  | place (e : PlaceErr)
  | internal
deriving DecidableEq, Repr

/-- `Game.current_player`, reduced to the index it selects:
`not self.first_player` is true both for `None` and for the legitimate
player index `0`, so both raise `NotStarted`. -/
def Game.currentIndex (g : Game) : Except GameErr Nat :=
  match g.first_player with
  | none => .error .notStarted
  | some 0 => .error .notStarted
  | some fp => .ok ((g.turn + fp) % g.players.length)

/-- `Game.play`.  Every Python raise happens before any mutation, and the
state returned alongside the outcome is exactly what the call left behind.
The two `internal` arms embed situations the surrounding checks make
unreachable (`min` of an empty player list, `is_blocked` of a table that is
still empty after a successful placement). -/
def Game.play (g : Game) (t : Tile) (side : Option Side) :
    Except GameErr (Option Player) × Game :=
  match g.currentIndex with
  | .error e => (.error e, g)
  | .ok i =>
    let cp := g.players.getD i default
    if !(cp.hand.any fun x => tileEq x t) then (.error .notInHand, g)
    else
      match g.table.add_tile t side with
      | (.error e, T2, _) => (.error (.place e), { g with table := T2 })
      | (.ok _, T2, _) =>
        let cp2 : Player := ⟨cp.name, handRemove cp.hand t⟩
        let ps2 := g.players.set i cp2
        let g2 : Game := { g with table := T2, players := ps2 }
        if cp2.hand.isEmpty then (.ok (some cp2), g2)
        else
          match T2.is_blocked with
          | some true =>
            match minScorePlayer ps2 with
            | some w => (.ok (some w), g2)
            | none => (.error .internal, g2)
          | some false => (.ok none, { g2 with turn := g2.turn + 1 })
          | none => (.error .internal, g2)

/-- One `stock.pop()` of `Game.deal`, into the hand of player `idx`,
recording `first_player` when the popped tile is the double six.  `none`
embeds the `IndexError` of popping an exhausted stock. -/
def Game.dealStep (g : Game) (idx : Nat) : Option Game :=
  match g.stock.getLast? with
  | none => none
  | some tile =>
    let g1 : Game := { g with stock := g.stock.dropLast }
    let g2 : Game :=
      if tile.left == 6 && tile.right == 6 then { g1 with first_player := some idx }
      else g1
    let p := g2.players.getD idx default
    some { g2 with players := g2.players.set idx ⟨p.name, handAdd p.hand tile⟩ }

/-- The inner `for index, player in enumerate(self.players)` loop of
`Game.deal`. -/
def Game.dealPass (g : Game) : List Nat → Option Game
  | [] => some g
  | idx :: rest =>
    match g.dealStep idx with
    | none => none
    | some g2 => g2.dealPass rest

/-- The outer `for _ in range(7)` loop of `Game.deal`. -/
def Game.dealRounds (g : Game) : Nat → Option Game
  | 0 => some g
  | n + 1 =>
    match g.dealPass (List.range g.players.length) with
    | none => none
    | some g2 => g2.dealRounds n

/-- `Game.deal`, applied after the shuffle: the stock of the argument is the
already permuted stock, and seven passes pop one tile per player from its
end. -/
def Game.deal (g : Game) : Option Game := g.dealRounds 7

/-- The 28 intended tiles in the generator's order; the double six sits at
the end, so after a shuffle that leaves this order the very first
`stock.pop()` hands it to player 0. -/
def stockAsc : List Tile :=
  (List.range 7).flatMap fun l => (List.range' l (7 - l)).map fun r => ⟨l, r⟩

/-- A fresh two-player game holding that stock, before any deal. -/
def gameC4 : Game := ⟨[⟨"A", []⟩, ⟨"B", []⟩], Table.empty, stockAsc, none, 0⟩

/-- C1: the claim expects `DOMINO_SET` to hold one tile per unordered pip
pair over `[0,6]`, 28 in all.  The source generator runs pip 0 through the
validating constructor and the whole construction raises `ValueError`
instead, so no tile universe is produced; the universe the spec describes,
rebuilt from its wording, does have exactly 28 tiles, each unordered pair
appearing exactly once. -/
theorem c1_domino_set :
    dominoSetGen = .error "Domino tiles must have values between 1 and 6" ∧
    intendedDominoSet.card = 28 ∧
    ∀ a b : Nat, a ≤ b → b ≤ 6 →
      (intendedDominoSet.filter fun t => t.left = a ∧ t.right = b).card = 1 := by
  refine ⟨rfl, by decide, ?_⟩
  intro a b hab hb6
  have ha6 : a ≤ 6 := le_trans hab hb6
  interval_cases a <;> interval_cases b <;> decide

/-- Witness for C1 at the unordered pair `(1, 3)`. -/
theorem c1_domino_set_witness :
    ((1 : Nat) ≤ 3 ∧ (3 : Nat) ≤ 6) ∧
    (intendedDominoSet.filter fun t => t.left = 1 ∧ t.right = 3).card = 1 :=
  ⟨⟨by decide, by decide⟩, c1_domino_set.2.2 1 3 (by decide) (by decide)⟩

/-- C2 fails as stated: both orientations of the pair `(1, 2)` are accepted
by the constructor, yet `Tile(1,2) == Tile(2,1)` is false for the
tile-to-tile comparison, and the hashes of the two orientations differ. -/
theorem c2_tile_eq_counterexample :
    Tile.make 1 2 = .ok ⟨1, 2⟩ ∧ Tile.make 2 1 = .ok ⟨2, 1⟩ ∧
    tileEq ⟨1, 2⟩ ⟨2, 1⟩ = false ∧ Tile.hashKey ⟨1, 2⟩ ≠ Tile.hashKey ⟨2, 1⟩ :=
  ⟨rfl, rfl, rfl, by decide⟩

/-- C2 (amended): for constructor-accepted pairs, tile-to-tile equality and
the hash follow the current ordered orientation, so `Tile(a,b) == Tile(b,a)`
and hash equality hold exactly when `a = b`; only comparison against a plain
two-element pair is orientation independent, in both orders. -/
theorem c2_tile_eq_amended (a b : Nat) (_h : ∃ t, Tile.make a b = .ok t) :
    (tileEq ⟨a, b⟩ ⟨b, a⟩ = true ↔ a = b) ∧
    (Tile.hashKey ⟨a, b⟩ = Tile.hashKey ⟨b, a⟩ ↔ a = b) ∧
    tileEqPair ⟨a, b⟩ (a, b) = true ∧ tileEqPair ⟨a, b⟩ (b, a) = true := by
  refine ⟨?_, ?_, ?_, ?_⟩
  · simp [tileEq, Bool.and_eq_true, beq_iff_eq]
    omega
  · simp [Tile.hashKey, Prod.ext_iff]
    omega
  · simp [tileEqPair]
  · simp [tileEqPair]

/-- Witness for C2 (amended) at the accepted pair `(1, 2)`. -/
theorem c2_tile_eq_amended_witness :
    (∃ t, Tile.make 1 2 = .ok t) ∧
    ((tileEq ⟨1, 2⟩ ⟨2, 1⟩ = true ↔ (1 : Nat) = 2) ∧
     (Tile.hashKey ⟨1, 2⟩ = Tile.hashKey ⟨2, 1⟩ ↔ (1 : Nat) = 2) ∧
     tileEqPair ⟨1, 2⟩ (1, 2) = true ∧ tileEqPair ⟨1, 2⟩ (2, 1) = true) :=
  ⟨⟨⟨1, 2⟩, rfl⟩, c2_tile_eq_amended 1 2 ⟨⟨1, 2⟩, rfl⟩⟩

/-- C3 fails on the code: the first tile placed on an empty table is
appended without touching `_value_counts`, so after one successful
`add_tile` every counter is still 0, the counters sum to 0 rather than
2 × 1, and the endpoint counts of pips 2 and 5 are wrong. -/
theorem c3_occupancy_bug :
    (Table.empty.add_tile ⟨2, 5⟩ none).1 = .ok () ∧
    (Table.empty.add_tile ⟨2, 5⟩ none).2.1.tiles = [⟨2, 5⟩] ∧
    (Table.empty.add_tile ⟨2, 5⟩ none).2.1.value_counts.sum = 0 ∧
    (Table.empty.add_tile ⟨2, 5⟩ none).2.1.value_counts.sum ≠
      2 * (Table.empty.add_tile ⟨2, 5⟩ none).2.1.tiles.length :=
  ⟨rfl, rfl, rfl, by decide⟩

/-- C4 fails on the code: dealing this stock hands the double six to player
0, so `deal` does assign `first_player = 0`, yet `current_player` still
raises `NotStarted`, because `not self.first_player` is also true for the
index 0. -/
theorem c4_first_player_zero :
    ∃ g1, gameC4.deal = some g1 ∧ g1.first_player = some 0 ∧
      g1.currentIndex = .error .notStarted :=
  ⟨_, rfl, rfl, rfl⟩

/-- C10: on the empty table both ends are `None`, the ends-unequal early
return is skipped (`None != None` is false), and indexing the counter array
with `None` raises, so `is_blocked` yields no boolean there; on every
non-empty table it does return one. -/
theorem c10_is_blocked_empty :
    Table.empty.left_end = none ∧ Table.empty.right_end = none ∧
    Table.empty.is_blocked = none ∧
    ∀ T : Table, T.tiles ≠ [] → ∃ b, T.is_blocked = some b := by
  refine ⟨rfl, rfl, rfl, ?_⟩
  intro T hne
  unfold Table.is_blocked
  split
  · exact ⟨false, rfl⟩
  · cases hT : T.tiles with
    | nil => exact absurd hT hne
    | cons x xs =>
      simp only [Table.left_end, hT, List.head?_cons, Option.map_some]
      exact ⟨_, rfl⟩

/-- Witness for C10 on a one-tile table. -/
theorem c10_is_blocked_empty_witness :
    (Table.mk [⟨1, 2⟩] (List.replicate 7 0)).tiles ≠ [] ∧
    ∃ b, (Table.mk [⟨1, 2⟩] (List.replicate 7 0)).is_blocked = some b :=
  ⟨by decide, c10_is_blocked_empty.2.2.2 _ (by decide)⟩

/-- `_add_left` accepts exactly when the tile can play on the left end. -/
theorem addLeft_pos (T : Table) (t : Tile) (h : T.can_play_left t = true) :
    ∃ T2 t2, T.addLeft t = (.ok (), T2, t2) := by
  simp [Table.addLeft, h]

/-- `_add_left` rejects without mutating when the tile cannot play there. -/
theorem addLeft_neg (T : Table) (t : Tile) (h : T.can_play_left t = false) :
    T.addLeft t = (.error .invalid, T, t) := by
  simp [Table.addLeft, h]

/-- `_add_right` accepts exactly when the tile can play on the right end. -/
theorem addRight_pos (T : Table) (t : Tile) (h : T.can_play_right t = true) :
    ∃ T2 t2, T.addRight t = (.ok (), T2, t2) := by
  simp [Table.addRight, h]

/-- `_add_right` rejects without mutating when the tile cannot play there. -/
theorem addRight_neg (T : Table) (t : Tile) (h : T.can_play_right t = false) :
    T.addRight t = (.error .invalid, T, t) := by
  simp [Table.addRight, h]

/-- `_add_left` mutates nothing alongside an error. -/
theorem addLeft_error_frame (T : Table) (t : Tile) (e : PlaceErr)
    (h : (T.addLeft t).1 = .error e) : T.addLeft t = (.error .invalid, T, t) := by
  cases hc : T.can_play_left t
  · exact addLeft_neg T t hc
  · rcases addLeft_pos T t hc with ⟨T2, t2, hA⟩
    rw [hA] at h
    exact absurd h (by simp)

/-- `_add_right` mutates nothing alongside an error. -/
theorem addRight_error_frame (T : Table) (t : Tile) (e : PlaceErr)
    (h : (T.addRight t).1 = .error e) : T.addRight t = (.error .invalid, T, t) := by
  cases hc : T.can_play_right t
  · exact addRight_neg T t hc
  · rcases addRight_pos T t hc with ⟨T2, t2, hA⟩
    rw [hA] at h
    exact absurd h (by simp)

/-- `add_tile` hands the table and the tile back unchanged alongside any
error: each raise precedes every mutation. -/
theorem add_tile_error_frame (T : Table) (t : Tile) (side : Option Side) (e : PlaceErr)
    (h : (T.add_tile t side).1 = .error e) :
    (T.add_tile t side).2 = (T, t) := by
  by_cases hemp : T.tiles.isEmpty = true
  · simp [Table.add_tile, hemp] at h
  · rw [Bool.not_eq_true] at hemp
    cases side with
    | none =>
      cases hamb : (!t.is_double && T.can_play_left t && T.can_play_right t) with
      | true => simp [Table.add_tile, hemp, hamb]
      | false =>
        cases hc : T.can_play_left t with
        | true =>
          rcases addLeft_pos T t hc with ⟨T2, t2, hA⟩
          simp [Table.add_tile, hemp, hamb, hA] at h
        | false =>
          have hL := addLeft_neg T t hc
          have hstep : T.add_tile t none = T.addRight t := by
            simp [Table.add_tile, hemp, hamb, hL]
          rw [hstep] at h ⊢
          rw [addRight_error_frame T t e h]
    | some s =>
      cases s with
      | left =>
        have hstep : T.add_tile t (some .left) = T.addLeft t := by
          simp [Table.add_tile, hemp]
        rw [hstep] at h ⊢
        rw [addLeft_error_frame T t e h]
      | right =>
        have hstep : T.add_tile t (some .right) = T.addRight t := by
          simp [Table.add_tile, hemp]
        rw [hstep] at h ⊢
        rw [addRight_error_frame T t e h]

/-- With no side given, an unambiguous tile playable on the left goes left. -/
theorem add_tile_none_left (T : Table) (t : Tile)
    (hemp : T.tiles.isEmpty = false)
    (hamb : (!t.is_double && T.can_play_left t && T.can_play_right t) = false)
    (hc : T.can_play_left t = true) :
    T.add_tile t none = T.addLeft t := by
  rcases addLeft_pos T t hc with ⟨T2, t2, hA⟩
  simp [Table.add_tile, hemp, hamb, hA]

/-- With no side given, a tile the left end rejects falls back to the right. -/
theorem add_tile_none_right (T : Table) (t : Tile)
    (hemp : T.tiles.isEmpty = false)
    (hamb : (!t.is_double && T.can_play_left t && T.can_play_right t) = false)
    (hc : T.can_play_left t = false) :
    T.add_tile t none = T.addRight t := by
  simp [Table.add_tile, hemp, hamb, addLeft_neg T t hc]

/-- C6: on a non-empty table with the side omitted, `add_tile` raises
`AmbiguousTilePlacement` exactly for a non-double playable on both ends;
otherwise it is the left-first placement with right fallback, and it raises
`InvalidTilePlacement` exactly when neither end accepts the tile. -/
theorem c6_side_omitted (T : Table) (t : Tile) (hne : T.tiles ≠ []) :
    (((T.add_tile t none).1 = .error .ambiguous) ↔
      (t.is_double = false ∧ T.can_play_left t = true ∧ T.can_play_right t = true)) ∧
    ((¬(t.is_double = false ∧ T.can_play_left t = true ∧ T.can_play_right t = true)) →
      ((T.can_play_left t = true → T.add_tile t none = T.addLeft t) ∧
       (T.can_play_left t = false → T.add_tile t none = T.addRight t))) ∧
    (((T.add_tile t none).1 = .error .invalid) ↔
      (T.can_play_left t = false ∧ T.can_play_right t = false)) := by
  have hemp : T.tiles.isEmpty = false := by
    simpa [List.isEmpty_iff] using hne
  cases hd : t.is_double with
  | true =>
    have hamb : (!t.is_double && T.can_play_left t && T.can_play_right t) = false := by
      simp [hd]
    cases hc : T.can_play_left t with
    | true =>
      rcases addLeft_pos T t hc with ⟨T2, t2, hA⟩
      have hstep := add_tile_none_left T t hemp hamb hc
      cases hr : T.can_play_right t <;> simp [hstep, hA]
    | false =>
      have hstep := add_tile_none_right T t hemp hamb hc
      cases hr : T.can_play_right t with
      | true =>
        rcases addRight_pos T t hr with ⟨T2, t2, hA⟩
        simp [hstep, hA]
      | false =>
        simp [hstep, addRight_neg T t hr]
  | false =>
    cases hc : T.can_play_left t with
    | true =>
      cases hr : T.can_play_right t with
      | true =>
        have hstep : T.add_tile t none = (.error .ambiguous, T, t) := by
          simp [Table.add_tile, hemp, hd, hc, hr]
        simp [hstep]
      | false =>
        have hamb : (!t.is_double && T.can_play_left t && T.can_play_right t) = false := by
          simp [hr]
        rcases addLeft_pos T t hc with ⟨T2, t2, hA⟩
        simp [add_tile_none_left T t hemp hamb hc, hA]
    | false =>
      have hamb : (!t.is_double && T.can_play_left t && T.can_play_right t) = false := by
        simp [hc]
      have hstep := add_tile_none_right T t hemp hamb hc
      cases hr : T.can_play_right t with
      | true =>
        rcases addRight_pos T t hr with ⟨T2, t2, hA⟩
        simp [hstep, hA]
      | false =>
        simp [hstep, addRight_neg T t hr]

/-- Witness for C6: the table `[2|5]` with the unplayable tile `[1|1]` and
the double `[5|5]`, which goes right without ambiguity. -/
theorem c6_side_omitted_witness :
    (Table.mk [⟨2, 5⟩] (List.replicate 7 0)).tiles ≠ [] ∧
    ((Table.mk [⟨2, 5⟩] (List.replicate 7 0)).add_tile ⟨1, 1⟩ none).1 = .error .invalid := by
  have h := c6_side_omitted (Table.mk [⟨2, 5⟩] (List.replicate 7 0)) ⟨1, 1⟩ (by decide)
  exact ⟨by decide, h.2.2.mpr ⟨by decide, by decide⟩⟩

/-- The player list after the mover removes the played tile. -/
def playersAfter (g : Game) (i : Nat) (t : Tile) : List Player :=
  g.players.set i ⟨(g.players.getD i default).name,
    handRemove (g.players.getD i default).hand t⟩

/-- `play` before a deal: `current_player` raises and nothing changes. -/
theorem play_start_err (g : Game) (t : Tile) (side : Option Side) (e2 : GameErr)
    (hci : g.currentIndex = .error e2) :
    g.play t side = (.error e2, g) := by
  unfold Game.play
  rw [hci]

/-- `play` of a tile absent from the mover's hand: raise, nothing changes. -/
theorem play_notInHand (g : Game) (t : Tile) (side : Option Side) (i : Nat)
    (hci : g.currentIndex = .ok i)
    (hh : ((g.players.getD i default).hand.any fun x => tileEq x t) = false) :
    g.play t side = (.error .notInHand, g) := by
  unfold Game.play
  rw [hci]
  simp only [hh, Bool.not_false, if_true]

/-- `play` when the table rejects the tile: the error propagates and the
table is whatever `add_tile` left (unchanged, by the frame lemma). -/
theorem play_placeErr (g : Game) (t : Tile) (side : Option Side) (i : Nat)
    (ea : PlaceErr) (T2 : Table) (t2 : Tile)
    (hci : g.currentIndex = .ok i)
    (hh : ((g.players.getD i default).hand.any fun x => tileEq x t) = true)
    (hA : g.table.add_tile t side = (.error ea, T2, t2)) :
    g.play t side = (.error (.place ea), { g with table := T2 }) := by
  unfold Game.play
  rw [hci]
  simp only [hh, Bool.not_true, hA]
  simp

/-- `play` emptying the mover's hand: that player is returned as winner. -/
theorem play_hand_win (g : Game) (t : Tile) (side : Option Side) (i : Nat)
    (T2 : Table) (t2 : Tile)
    (hci : g.currentIndex = .ok i)
    (hh : ((g.players.getD i default).hand.any fun x => tileEq x t) = true)
    (hA : g.table.add_tile t side = (.ok (), T2, t2))
    (hE : (handRemove (g.players.getD i default).hand t).isEmpty = true) :
    g.play t side = (.ok (some ⟨(g.players.getD i default).name,
        handRemove (g.players.getD i default).hand t⟩),
      { g with table := T2, players := playersAfter g i t }) := by
  unfold Game.play
  rw [hci]
  simp only [hh, Bool.not_true, hA, hE, playersAfter]
  simp

/-- `play` that blocks the table: the earliest lowest-scoring player wins. -/
theorem play_blocked_winner (g : Game) (t : Tile) (side : Option Side) (i : Nat)
    (T2 : Table) (t2 : Tile) (w : Player)
    (hci : g.currentIndex = .ok i)
    (hh : ((g.players.getD i default).hand.any fun x => tileEq x t) = true)
    (hA : g.table.add_tile t side = (.ok (), T2, t2))
    (hE : (handRemove (g.players.getD i default).hand t).isEmpty = false)
    (hB : T2.is_blocked = some true)
    (hM : minScorePlayer (playersAfter g i t) = some w) :
    g.play t side = (.ok (some w), { g with table := T2, players := playersAfter g i t }) := by
  unfold Game.play
  rw [hci]
  simp only [hh, Bool.not_true, hA, hE, hB, playersAfter] at hM ⊢
  simp only [hM]
  simp

/-- `play` that keeps the round going: the turn advances. -/
theorem play_continue (g : Game) (t : Tile) (side : Option Side) (i : Nat)
    (T2 : Table) (t2 : Tile)
    (hci : g.currentIndex = .ok i)
    (hh : ((g.players.getD i default).hand.any fun x => tileEq x t) = true)
    (hA : g.table.add_tile t side = (.ok (), T2, t2))
    (hE : (handRemove (g.players.getD i default).hand t).isEmpty = false)
    (hB : T2.is_blocked = some false) :
    g.play t side = (.ok none,
      { g with table := T2, players := playersAfter g i t, turn := g.turn + 1 }) := by
  unfold Game.play
  rw [hci]
  simp only [hh, Bool.not_true, hA, hE, hB, playersAfter]
  simp

/-- The unreachable arm: a blocked table with no players to take the round. -/
theorem play_internal_nomin (g : Game) (t : Tile) (side : Option Side) (i : Nat)
    (T2 : Table) (t2 : Tile)
    (hci : g.currentIndex = .ok i)
    (hh : ((g.players.getD i default).hand.any fun x => tileEq x t) = true)
    (hA : g.table.add_tile t side = (.ok (), T2, t2))
    (hE : (handRemove (g.players.getD i default).hand t).isEmpty = false)
    (hB : T2.is_blocked = some true)
    (hM : minScorePlayer (playersAfter g i t) = none) :
    g.play t side = (.error .internal, { g with table := T2, players := playersAfter g i t }) := by
  unfold Game.play
  rw [hci]
  simp only [hh, Bool.not_true, hA, hE, hB, playersAfter] at hM ⊢
  simp only [hM]
  simp

/-- The unreachable arm: `is_blocked` of an empty table after a placement. -/
theorem play_internal_noblock (g : Game) (t : Tile) (side : Option Side) (i : Nat)
    (T2 : Table) (t2 : Tile)
    (hci : g.currentIndex = .ok i)
    (hh : ((g.players.getD i default).hand.any fun x => tileEq x t) = true)
    (hA : g.table.add_tile t side = (.ok (), T2, t2))
    (hE : (handRemove (g.players.getD i default).hand t).isEmpty = false)
    (hB : T2.is_blocked = none) :
    g.play t side = (.error .internal, { g with table := T2, players := playersAfter g i t }) := by
  unfold Game.play
  rw [hci]
  simp only [hh, Bool.not_true, hA, hE, hB, playersAfter]
  simp

/-- C8: whenever `add_tile` or `play` raises `InvalidTilePlacement`,
`AmbiguousTilePlacement` or `NotInHand`, the state the call leaves behind is
exactly the state it received: the table's sequence and counters, the
offered tile's orientation, the hands and the turn counter are untouched. -/
theorem c8_error_atomicity :
    (∀ (T : Table) (t : Tile) (side : Option Side) (e : PlaceErr),
        (T.add_tile t side).1 = .error e → (T.add_tile t side).2 = (T, t)) ∧
    (∀ (g : Game) (t : Tile) (side : Option Side) (e : GameErr),
        (e = .notInHand ∨ ∃ pe, e = .place pe) →
        (g.play t side).1 = .error e → (g.play t side).2 = g) := by
  refine ⟨add_tile_error_frame, ?_⟩
  intro g t side e he h
  cases hci : g.currentIndex with
  | error e2 => rw [play_start_err g t side e2 hci]
  | ok i =>
    cases hh : ((g.players.getD i default).hand.any fun x => tileEq x t) with
    | false => rw [play_notInHand g t side i hci hh]
    | true =>
      rcases hA : g.table.add_tile t side with ⟨r, T2, t2⟩
      cases r with
      | error ea =>
        have hframe := add_tile_error_frame g.table t side ea (by rw [hA])
        rw [hA] at hframe
        have hT2 : T2 = g.table := congrArg Prod.fst hframe
        rw [play_placeErr g t side i ea T2 t2 hci hh hA, hT2]
      | ok u =>
        cases u
        cases hE : (handRemove (g.players.getD i default).hand t).isEmpty with
        | true =>
          rw [play_hand_win g t side i T2 t2 hci hh hA hE] at h
          simp at h
        | false =>
          cases hB : T2.is_blocked with
          | none =>
            rw [play_internal_noblock g t side i T2 t2 hci hh hA hE hB] at h
            rcases he with he | ⟨pe, he⟩ <;> subst he <;> simp at h
          | some b =>
            cases b with
            | false =>
              rw [play_continue g t side i T2 t2 hci hh hA hE hB] at h
              simp at h
            | true =>
              cases hM : minScorePlayer (playersAfter g i t) with
              | some w =>
                rw [play_blocked_winner g t side i T2 t2 w hci hh hA hE hB hM] at h
                simp at h
              | none =>
                rw [play_internal_nomin g t side i T2 t2 hci hh hA hE hB hM] at h
                rcases he with he | ⟨pe, he⟩ <;> subst he <;> simp at h

def tableC8 : Table := ⟨[⟨1, 2⟩], List.replicate 7 0⟩

def gameC8 : Game := ⟨[⟨"A", [⟨1, 2⟩]⟩, ⟨"B", [⟨3, 4⟩]⟩], Table.empty, [], some 1, 0⟩

/-- Witness for C8: a rejected placement on `[1|2]` and a play of a tile the
mover does not hold, both leaving their state untouched. -/
theorem c8_error_atomicity_witness :
    (tableC8.add_tile ⟨3, 4⟩ none).1 = .error .invalid ∧
    (tableC8.add_tile ⟨3, 4⟩ none).2 = (tableC8, ⟨3, 4⟩) ∧
    (gameC8.play ⟨6, 6⟩ none).1 = .error .notInHand ∧
    (gameC8.play ⟨6, 6⟩ none).2 = gameC8 :=
  ⟨rfl,
   c8_error_atomicity.1 tableC8 ⟨3, 4⟩ none .invalid rfl,
   rfl,
   c8_error_atomicity.2 gameC8 ⟨6, 6⟩ none .notInHand (Or.inl rfl) rfl⟩

/-- An explicit side on a non-empty table goes straight to `_add_left`. -/
theorem add_tile_some_left (T : Table) (t : Tile) (hemp : T.tiles.isEmpty = false) :
    T.add_tile t (some .left) = T.addLeft t := by
  simp [Table.add_tile, hemp]

/-- An explicit side on a non-empty table goes straight to `_add_right`. -/
theorem add_tile_some_right (T : Table) (t : Tile) (hemp : T.tiles.isEmpty = false) :
    T.add_tile t (some .right) = T.addRight t := by
  simp [Table.add_tile, hemp]

/-- A tile playable on the left end presupposes a first tile. -/
theorem can_play_left_nonempty (T : Table) (t : Tile)
    (hc : T.can_play_left t = true) : ∃ x xs, T.tiles = x :: xs := by
  cases hts : T.tiles with
  | nil =>
    rw [Table.can_play_left, Table.left_end, hts] at hc
    exact absurd hc (by simp)
  | cons x xs => exact ⟨x, xs, rfl⟩

/-- A tile playable on the right end presupposes a last tile. -/
theorem can_play_right_nonempty (T : Table) (t : Tile)
    (hc : T.can_play_right t = true) : ∃ y, T.tiles.getLast? = some y := by
  cases hts : T.tiles.getLast? with
  | none =>
    rw [Table.can_play_right, Table.right_end, hts] at hc
    exact absurd hc (by simp)
  | some y => exact ⟨y, rfl⟩

/-- Shape of a successful `_add_left`: the tile is prepended, oriented so
that its right pip equals the old first tile's left pip. -/
theorem addLeft_shape (T : Table) (t : Tile) (hc : T.can_play_left t = true) :
    (T.addLeft t).2.1.tiles = (T.addLeft t).2.2 :: T.tiles ∧
    ∀ x xs, T.tiles = x :: xs → ((T.addLeft t).2.2).right = x.left := by
  constructor
  · simp [Table.addLeft, hc]
  · intro x xs hts
    have hle : T.left_end = some x.left := by simp [Table.left_end, hts]
    cases hr : (some t.right == T.left_end) with
    | true =>
      have heq : t.right = x.left := by
        have h2 := hr
        rw [beq_iff_eq, hle] at h2
        exact Option.some.inj h2
      simpa [Table.addLeft, hc, hr] using heq
    | false =>
      have hcc := hc
      simp only [Table.can_play_left, hle] at hcc
      have hne : (t.right == x.left) = false := by
        rw [hle] at hr
        simpa using hr
      rw [hne, Bool.or_false] at hcc
      rw [beq_iff_eq] at hcc
      simp [Table.addLeft, hc, hr, Tile.rotate, hcc]

/-- Shape of a successful `_add_right`: the tile is appended, oriented so
that its left pip equals the old last tile's right pip. -/
theorem addRight_shape (T : Table) (t : Tile) (hc : T.can_play_right t = true) :
    (T.addRight t).2.1.tiles = T.tiles ++ [(T.addRight t).2.2] ∧
    ∀ y, T.tiles.getLast? = some y → ((T.addRight t).2.2).left = y.right := by
  constructor
  · simp [Table.addRight, hc]
  · intro y hts
    have hre : T.right_end = some y.right := by simp [Table.right_end, hts]
    cases hr : (some t.left == T.right_end) with
    | true =>
      have heq : t.left = y.right := by
        have h2 := hr
        rw [beq_iff_eq, hre] at h2
        exact Option.some.inj h2
      simpa [Table.addRight, hc, hr] using heq
    | false =>
      have hcc := hc
      simp only [Table.can_play_right, hre] at hcc
      have hne : (t.left == y.right) = false := by
        rw [hre] at hr
        simpa using hr
      rw [hne, Bool.false_or] at hcc
      rw [beq_iff_eq] at hcc
      simp [Table.addRight, hc, hr, Tile.rotate, hcc]

/-- A successful `_add_left` keeps consecutive tiles matching. -/
theorem chain_addLeft (T : Table) (t : Tile) (T2 : Table) (t2 : Tile)
    (hch : List.Chain' (fun a b => a.right = b.left) T.tiles)
    (hA : T.addLeft t = (.ok (), T2, t2)) :
    List.Chain' (fun a b => a.right = b.left) T2.tiles := by
  cases hc : T.can_play_left t with
  | false =>
    rw [addLeft_neg T t hc] at hA
    exact absurd hA (by simp)
  | true =>
    obtain ⟨hshape, hlink⟩ := addLeft_shape T t hc
    rw [hA] at hshape hlink
    obtain ⟨x, xs, hts⟩ := can_play_left_nonempty T t hc
    rw [hshape, hts]
    rw [hts] at hch
    exact List.Chain'.cons (hlink x xs hts) hch

/-- A successful `_add_right` keeps consecutive tiles matching. -/
theorem chain_addRight (T : Table) (t : Tile) (T2 : Table) (t2 : Tile)
    (hch : List.Chain' (fun a b => a.right = b.left) T.tiles)
    (hA : T.addRight t = (.ok (), T2, t2)) :
    List.Chain' (fun a b => a.right = b.left) T2.tiles := by
  cases hc : T.can_play_right t with
  | false =>
    rw [addRight_neg T t hc] at hA
    exact absurd hA (by simp)
  | true =>
    obtain ⟨hshape, hlink⟩ := addRight_shape T t hc
    rw [hA] at hshape hlink
    obtain ⟨y, hts⟩ := can_play_right_nonempty T t hc
    rw [hshape]
    refine List.Chain'.append hch (by simp) ?_
    intro a ha b hb
    rw [hts] at ha
    simp at ha hb
    subst ha
    subst hb
    exact (hlink y hts).symm

/-- Every successful `add_tile` keeps consecutive tiles matching. -/
theorem chain_add_tile (T : Table) (t : Tile) (side : Option Side)
    (T2 : Table) (t2 : Tile)
    (hch : List.Chain' (fun a b => a.right = b.left) T.tiles)
    (hA : T.add_tile t side = (.ok (), T2, t2)) :
    List.Chain' (fun a b => a.right = b.left) T2.tiles := by
  by_cases hemp : T.tiles.isEmpty = true
  · have hts : T.tiles = [] := by simpa [List.isEmpty_iff] using hemp
    have hval : T.add_tile t side = (.ok (), ⟨T.tiles ++ [t], T.value_counts⟩, t) := by
      simp [Table.add_tile, hemp]
    rw [hval] at hA
    have h2 : T2.tiles = T.tiles ++ [t] := by
      have := congrArg (fun p => p.2.1.tiles) hA
      simpa using this.symm
    rw [h2, hts]
    simp
  · rw [Bool.not_eq_true] at hemp
    cases side with
    | some s =>
      cases s with
      | left =>
        rw [add_tile_some_left T t hemp] at hA
        exact chain_addLeft T t T2 t2 hch hA
      | right =>
        rw [add_tile_some_right T t hemp] at hA
        exact chain_addRight T t T2 t2 hch hA
    | none =>
      cases hamb : (!t.is_double && T.can_play_left t && T.can_play_right t) with
      | true =>
        have hval : T.add_tile t none = (.error .ambiguous, T, t) := by
          simp [Table.add_tile, hemp, hamb]
        rw [hval] at hA
        exact absurd hA (by simp)
      | false =>
        cases hc : T.can_play_left t with
        | true =>
          rw [add_tile_none_left T t hemp hamb hc] at hA
          exact chain_addLeft T t T2 t2 hch hA
        | false =>
          rw [add_tile_none_right T t hemp hamb hc] at hA
          exact chain_addRight T t T2 t2 hch hA

/-- The tables reachable from the empty table by successful `add_tile`
calls, each placing a constructor-valid tile. -/
inductive Reaches : Table → Prop
  | empty : Reaches Table.empty
  | step : ∀ (T T2 : Table) (t t2 : Tile) (side : Option Side),
      Reaches T →
      (1 ≤ t.left ∧ t.left ≤ 6 ∧ 1 ≤ t.right ∧ t.right ≤ 6) →
      T.add_tile t side = (.ok (), T2, t2) →
      Reaches T2

/-- C5: on every table reachable by successful placements, each placed tile
was oriented to match the end it touched, so every pair of consecutive
tiles agrees: the left tile's right pip equals the right tile's left pip. -/
theorem c5_orientation_chain (T : Table) (h : Reaches T) :
    List.Chain' (fun a b => a.right = b.left) T.tiles := by
  induction h with
  | empty => simp [Table.empty]
  | step T T2 t t2 side hR hv hA ih => exact chain_add_tile T t side T2 t2 ih hA

/-- Witness for C5: place `[2|5]` then the double `[5|5]`; the resulting
two-tile table satisfies the matching chain. -/
theorem c5_orientation_chain_witness :
    List.Chain' (fun a b => a.right = b.left)
      ((((Table.empty.add_tile ⟨2, 5⟩ none).2.1).add_tile ⟨5, 5⟩ none).2.1).tiles :=
  c5_orientation_chain _
    (Reaches.step (Table.mk [⟨2, 5⟩] (List.replicate 7 0))
      ((((Table.empty.add_tile ⟨2, 5⟩ none).2.1).add_tile ⟨5, 5⟩ none).2.1)
      ⟨5, 5⟩ ⟨5, 5⟩ none
      (Reaches.step Table.empty (Table.mk [⟨2, 5⟩] (List.replicate 7 0))
        ⟨2, 5⟩ ⟨2, 5⟩ none Reaches.empty (by decide) rfl)
      (by decide) rfl)

/-- `w` is the earliest minimum-score player of `ps`. -/
def FirstMin (ps : List Player) (w : Player) : Prop :=
  (∀ q ∈ ps, w.score ≤ q.score) ∧
  ∃ pre post, ps = pre ++ w :: post ∧ ∀ q ∈ pre, w.score < q.score

/-- Python's `min` with the score key returns the earliest minimum. -/
theorem minBy_firstMin : ∀ (rest : List Player) (p : Player),
    FirstMin (p :: rest) (minBy rest p) := by
  intro rest
  induction rest with
  | nil =>
    intro p
    exact ⟨by simp [minBy], [], [], rfl, by simp⟩
  | cons q rest ih =>
    intro p
    by_cases hlt : q.score < p.score
    · have hmb : minBy (q :: rest) p = minBy rest q := by simp [minBy, hlt]
      rw [hmb]
      obtain ⟨hmin, pre, post, hdec, hpre⟩ := ih q
      have hrq : (minBy rest q).score ≤ q.score := hmin q (by simp)
      refine ⟨?_, p :: pre, post, ?_, ?_⟩
      · intro x hx
        rcases List.mem_cons.mp hx with rfl | hx2
        · exact le_of_lt (lt_of_le_of_lt hrq hlt)
        · exact hmin x hx2
      · rw [List.cons_append, ← hdec]
      · intro x hx
        rcases List.mem_cons.mp hx with rfl | hx2
        · exact lt_of_le_of_lt hrq hlt
        · exact hpre x hx2
    · have hmb : minBy (q :: rest) p = minBy rest p := by simp [minBy, hlt]
      rw [hmb]
      obtain ⟨hmin, pre, post, hdec, hpre⟩ := ih p
      have hple : p.score ≤ q.score := le_of_not_lt hlt
      have hrp : (minBy rest p).score ≤ p.score := hmin p (by simp)
      cases pre with
      | nil =>
        rw [List.nil_append] at hdec
        injection hdec with h1 h2
        refine ⟨?_, [], q :: post, ?_, by simp⟩
        · intro x hx
          rcases List.mem_cons.mp hx with rfl | hx2
          · exact hrp
          · rcases List.mem_cons.mp hx2 with rfl | hx3
            · exact le_trans hrp hple
            · exact hmin x (List.mem_cons_of_mem p hx3)
        · rw [List.nil_append, ← h1, ← h2]
      | cons a pre2 =>
        rw [List.cons_append] at hdec
        injection hdec with h1 h2
        refine ⟨?_, p :: q :: pre2, post, ?_, ?_⟩
        · intro x hx
          rcases List.mem_cons.mp hx with rfl | hx2
          · exact hrp
          · rcases List.mem_cons.mp hx2 with rfl | hx3
            · exact le_trans hrp hple
            · exact hmin x (List.mem_cons_of_mem p hx3)
        · rw [List.cons_append, List.cons_append, ← h2]
        · intro x hx
          have hap : (minBy rest p).score < a.score := hpre a (by simp)
          rw [← h1] at hap
          rcases List.mem_cons.mp hx with rfl | hx2
          · exact hap
          · rcases List.mem_cons.mp hx2 with rfl | hx3
            · exact lt_of_lt_of_le hap hple
            · exact hpre x (List.mem_cons_of_mem a hx3)

/-- C7: a successful play that leaves the mover's hand non-empty and the
table blocked returns the lowest-scoring player, the earliest one in player
order when the minimum is shared. -/
theorem c7_blocked_winner (g : Game) (t : Tile) (side : Option Side) (i : Nat)
    (hlen : 2 ≤ g.players.length)
    (hci : g.currentIndex = .ok i)
    (hh : ((g.players.getD i default).hand.any fun x => tileEq x t) = true)
    (hadd : (g.table.add_tile t side).1 = .ok ())
    (hrem : handRemove (g.players.getD i default).hand t ≠ [])
    (hblk : ((g.table.add_tile t side).2.1).is_blocked = some true) :
    ∃ w, (g.play t side).1 = .ok (some w) ∧ FirstMin (playersAfter g i t) w := by
  rcases hA : g.table.add_tile t side with ⟨r, T2, t2⟩
  rw [hA] at hadd hblk
  simp only at hadd hblk
  cases r with
  | error ea => exact absurd hadd (by simp)
  | ok u =>
    cases u
    have hE : (handRemove (g.players.getD i default).hand t).isEmpty = false := by
      simpa [List.isEmpty_iff] using hrem
    have hlen2 : (playersAfter g i t).length = g.players.length := by
      simp [playersAfter]
    cases hps : playersAfter g i t with
    | nil =>
      rw [hps] at hlen2
      simp at hlen2
      omega
    | cons p rest =>
      have hM : minScorePlayer (playersAfter g i t) = some (minBy rest p) := by
        rw [hps, minScorePlayer]
      refine ⟨minBy rest p, ?_, ?_⟩
      · rw [play_blocked_winner g t side i T2 t2 (minBy rest p) hci hh hA hE hblk hM]
      · exact minBy_firstMin rest p

def gameC7 : Game :=
  ⟨[⟨"A", [⟨3, 5⟩, ⟨1, 1⟩]⟩, ⟨"B", [⟨6, 6⟩]⟩],
   ⟨[⟨5, 3⟩], [0, 0, 0, 1, 0, 7, 0]⟩, [], some 1, 1⟩

/-- Witness for C7: player A plays `[3|5]` on the right of `[5|3]`, keeping
`[1|1]` in hand; the table blocks on pip 5 and A, scoring 2 against B's 12,
is returned as winner. -/
theorem c7_blocked_winner_witness :
    (2 ≤ gameC7.players.length) ∧
    gameC7.currentIndex = .ok 0 ∧
    ((gameC7.players.getD 0 default).hand.any fun x => tileEq x ⟨3, 5⟩) = true ∧
    (gameC7.table.add_tile ⟨3, 5⟩ (some .right)).1 = .ok () ∧
    handRemove (gameC7.players.getD 0 default).hand ⟨3, 5⟩ ≠ [] ∧
    ((gameC7.table.add_tile ⟨3, 5⟩ (some .right)).2.1).is_blocked = some true ∧
    ∃ w, (gameC7.play ⟨3, 5⟩ (some .right)).1 = .ok (some w) ∧
      FirstMin (playersAfter gameC7 0 ⟨3, 5⟩) w :=
  ⟨by decide, rfl, rfl, rfl, by decide, rfl,
   c7_blocked_winner gameC7 ⟨3, 5⟩ (some .right) 0
     (by decide) rfl rfl rfl (by decide) rfl⟩

/-- Tile equality of the source is symmetric. -/
theorem beqNat_comm (x y : Nat) : (x == y) = (y == x) := by
  by_cases hxy : x = y
  · subst hxy
    rfl
  · have hyx : ¬y = x := fun hc => hxy hc.symm
    simp [hxy, hyx]

theorem tileEq_symm (a b : Tile) : tileEq a b = tileEq b a := by
  unfold tileEq
  rw [beqNat_comm a.left b.left, beqNat_comm a.right b.right]

theorem list_getD_set_self : ∀ (l : List Player) (i : Nat) (a : Player),
    i < l.length → (l.set i a).getD i default = a
  | [], i, a, hlt => absurd hlt (by simp)
  | x :: xs, 0, a, _ => rfl
  | x :: xs, i + 1, a, hlt => list_getD_set_self xs i a (by simpa using hlt)

theorem list_getD_set_ne : ∀ (l : List Player) (i j : Nat) (a : Player),
    j ≠ i → (l.set i a).getD j default = l.getD j default
  | [], _, _, _, _ => by simp
  | x :: xs, 0, 0, a, hne => absurd rfl hne
  | x :: xs, 0, j + 1, a, _ => rfl
  | x :: xs, i + 1, 0, a, _ => rfl
  | x :: xs, i + 1, j + 1, a, hne =>
      list_getD_set_ne xs i j a fun hc => hne (by rw [hc])

/-- No two tiles of the list are equal in the source's sense. -/
def TilesDistinct (l : List Tile) : Prop :=
  l.Pairwise fun a b => tileEq a b = false

instance (l : List Tile) : Decidable (TilesDistinct l) :=
  inferInstanceAs (Decidable (l.Pairwise fun a b => tileEq a b = false))

/-- No tile still in stock equals a tile already in some hand. -/
def StockHandsDisjoint (g : Game) : Prop :=
  ∀ s ∈ g.stock, ∀ j : Nat, ∀ x ∈ (g.players.getD j default).hand, tileEq s x = false

/-- A fresh tile appended by `set.add`. -/
theorem handAdd_fresh (h : List Tile) (t : Tile)
    (hf : (h.any fun x => tileEq x t) = false) : handAdd h t = h ++ [t] := by
  unfold handAdd
  rw [hf]
  simp

/-- One deal step: pops the last stock tile into the hand of player `idx`,
growing that hand by exactly one (stock tiles are fresh to every hand). -/
theorem dealStep_spec (g : Game) (idx : Nat)
    (hidx : idx < g.players.length)
    (hne : g.stock ≠ [])
    (hdist : TilesDistinct g.stock)
    (hdisj : StockHandsDisjoint g) :
    ∃ g2, g.dealStep idx = some g2 ∧
      g2.players.length = g.players.length ∧
      g2.stock = g.stock.dropLast ∧
      TilesDistinct g2.stock ∧
      StockHandsDisjoint g2 ∧
      (∀ j, j ≠ idx → g2.players.getD j default = g.players.getD j default) ∧
      (g2.players.getD idx default).hand =
        (g.players.getD idx default).hand ++ [g.stock.getLast hne] := by
  set tile := g.stock.getLast hne with htile
  have htl : g.stock.getLast? = some tile := List.getLast?_eq_getLast g.stock hne
  have htmem : tile ∈ g.stock := List.getLast_mem hne
  have hanyf : ((g.players.getD idx default).hand.any fun x => tileEq x tile) = false := by
    rw [List.any_eq_false]
    intro x hx
    rw [Bool.not_eq_true, tileEq_symm]
    exact hdisj tile htmem idx x hx
  have hval : g.dealStep idx = some
      { g with
        stock := g.stock.dropLast,
        first_player :=
          if tile.left == 6 && tile.right == 6 then some idx else g.first_player,
        players := g.players.set idx
          ⟨(g.players.getD idx default).name,
           (g.players.getD idx default).hand ++ [tile]⟩ } := by
    rw [Game.dealStep, htl]
    cases hsix : (tile.left == 6 && tile.right == 6) <;>
      simp [hsix] <;> rw [handAdd_fresh _ _ (by simpa using hanyf)]
  refine ⟨_, hval, by simp, rfl, ?_, ?_, ?_, ?_⟩
  · exact hdist.sublist (List.dropLast_sublist g.stock)
  · intro s hs j x hx
    have hsub : s ∈ g.stock := (List.dropLast_sublist g.stock).subset hs
    by_cases hj : j = idx
    · subst hj
      rw [list_getD_set_self g.players j _ hidx] at hx
      rcases List.mem_append.mp hx with hx2 | hx2
      · exact hdisj s hsub j x hx2
      · have hxt : x = tile := by simpa using hx2
        subst hxt
        have hsplit : g.stock.dropLast ++ [tile] = g.stock :=
          List.dropLast_append_getLast hne
        have hpair := hdist
        rw [← hsplit] at hpair
        exact (List.pairwise_append.mp hpair).2.2 s hs tile (by simp)
    · rw [list_getD_set_ne g.players idx j _ hj] at hx
      exact hdisj s hsub j x hx
  · intro j hj
    exact list_getD_set_ne g.players idx j _ hj
  · rw [list_getD_set_self g.players idx _ hidx]

/-- One pass over a list of distinct player indices pops one tile each. -/
theorem dealPass_spec : ∀ (idxs : List Nat) (g : Game),
    idxs.Nodup →
    (∀ i ∈ idxs, i < g.players.length) →
    idxs.length ≤ g.stock.length →
    TilesDistinct g.stock →
    StockHandsDisjoint g →
    ∃ g2, g.dealPass idxs = some g2 ∧
      g2.players.length = g.players.length ∧
      g2.stock.length = g.stock.length - idxs.length ∧
      TilesDistinct g2.stock ∧
      StockHandsDisjoint g2 ∧
      ∀ j : Nat, ((g2.players.getD j default).hand).length =
        ((g.players.getD j default).hand).length + (if j ∈ idxs then 1 else 0) := by
  intro idxs
  induction idxs with
  | nil =>
    intro g _ _ _ hdist hdisj
    exact ⟨g, rfl, rfl, by simp, hdist, hdisj, fun j => by simp⟩
  | cons idx rest ih =>
    intro g hnd hmem hlen hdist hdisj
    obtain ⟨hnotin, hndr⟩ := List.nodup_cons.mp hnd
    have hne : g.stock ≠ [] := by
      intro hc
      rw [hc] at hlen
      simp at hlen
    obtain ⟨g1, hstep, hplen, hstock, hdist1, hdisj1, hother, hself⟩ :=
      dealStep_spec g idx (hmem idx (by simp)) hne hdist hdisj
    have hslen1 : g1.stock.length = g.stock.length - 1 := by
      rw [hstock, List.length_dropLast]
    obtain ⟨g2, hpass, hplen2, hslen2, hdist2, hdisj2, hhand2⟩ :=
      ih g1 hndr
        (fun i hi => by rw [hplen]; exact hmem i (List.mem_cons_of_mem idx hi))
        (by rw [hslen1]; simp at hlen; omega)
        hdist1 hdisj1
    have hrun : g.dealPass (idx :: rest) = some g2 := by
      rw [Game.dealPass, hstep]
      exact hpass
    refine ⟨g2, hrun, by rw [hplen2, hplen], ?_, hdist2, hdisj2, ?_⟩
    · rw [hslen2, hslen1]
      simp only [List.length_cons] at hlen ⊢
      omega
    · intro j
      by_cases hj : j = idx
      · subst hj
        have hnr : (j ∈ rest) = False := by simp [hnotin]
        rw [hhand2 j, hself]
        simp [hnotin]
      · rw [hhand2 j, hother j hj]
        simp [List.mem_cons, hj]

/-- `n` dealing rounds give each player `n` tiles and shrink the stock by
`n` tiles per player. -/
theorem dealRounds_spec : ∀ (n : Nat) (g : Game),
    n * g.players.length ≤ g.stock.length →
    TilesDistinct g.stock →
    StockHandsDisjoint g →
    ∃ g2, g.dealRounds n = some g2 ∧
      g2.players.length = g.players.length ∧
      g2.stock.length = g.stock.length - n * g.players.length ∧
      TilesDistinct g2.stock ∧
      StockHandsDisjoint g2 ∧
      ∀ j : Nat, j < g.players.length →
        ((g2.players.getD j default).hand).length =
          ((g.players.getD j default).hand).length + n := by
  intro n
  induction n with
  | zero =>
    intro g _ hdist hdisj
    exact ⟨g, rfl, rfl, by simp, hdist, hdisj, fun j _ => by simp⟩
  | succ n ih =>
    intro g hlen hdist hdisj
    rw [Nat.succ_mul] at hlen
    obtain ⟨g1, hpass, hplen1, hslen1, hdist1, hdisj1, hhand1⟩ :=
      dealPass_spec (List.range g.players.length) g
        (List.nodup_range g.players.length)
        (fun i hi => List.mem_range.mp hi)
        (by rw [List.length_range]; omega)
        hdist hdisj
    obtain ⟨g2, hrounds, hplen2, hslen2, hdist2, hdisj2, hhand2⟩ :=
      ih g1
        (by
          rw [hplen1, hslen1, List.length_range]
          omega)
        hdist1 hdisj1
    have hrun : g.dealRounds (n + 1) = some g2 := by
      rw [Game.dealRounds, hpass]
      exact hrounds
    refine ⟨g2, hrun, by rw [hplen2, hplen1], ?_, hdist2, hdisj2, ?_⟩
    · rw [hslen2, hslen1, hplen1, List.length_range, Nat.succ_mul]
      omega
    · intro j hj
      have h1 := hhand1 j
      rw [if_pos (List.mem_range.mpr hj)] at h1
      have h2 := hhand2 j (by rw [hplen1]; exact hj)
      rw [h2, h1]
      omega

/-- C9: a fresh game of `n` players (2 to 4) whose hands start empty deals
7 tiles to every player and leaves `28 - 7 * n` tiles in stock. -/
theorem c9_deal_counts (g : Game)
    (h2 : 2 ≤ g.players.length) (h4 : g.players.length ≤ 4)
    (hhands : (g.players.all fun p => p.hand.isEmpty) = true)
    (hstock : g.stock.length = 28)
    (hdist : TilesDistinct g.stock) :
    ∃ g2, g.deal = some g2 ∧
      (g2.players.all fun p => p.hand.length == 7) = true ∧
      g2.stock.length = 28 - 7 * g.players.length := by
  have hempty : ∀ j : Nat, (g.players.getD j default).hand = [] := by
    intro j
    by_cases hj : j < g.players.length
    · have hmem : g.players.getD j default ∈ g.players := by
        rw [List.getD_eq_getElem g.players default hj]
        exact List.getElem_mem hj
      have := (List.all_eq_true.mp hhands) _ hmem
      simpa [List.isEmpty_iff] using this
    · rw [List.getD_eq_default g.players default (by omega)]
      rfl
  have hdisj : StockHandsDisjoint g := by
    intro s _ j x hx
    rw [hempty j] at hx
    cases hx
  have hmul : 7 * g.players.length ≤ g.stock.length := by
    rw [hstock]
    omega
  obtain ⟨g2, hdeal, hplen, hslen, _, _, hhand⟩ :=
    dealRounds_spec 7 g hmul hdist hdisj
  refine ⟨g2, hdeal, ?_, by rw [hslen, hstock]⟩
  rw [List.all_eq_true]
  intro p hp
  obtain ⟨j, hj, hpj⟩ := List.mem_iff_getElem.mp hp
  have hg : g2.players.getD j default = p := by
    rw [List.getD_eq_getElem g2.players default hj]
    exact hpj
  have hjlt : j < g.players.length := by
    rw [← hplen]
    exact hj
  have hlen7 := hhand j hjlt
  rw [hg, hempty j] at hlen7
  simp at hlen7
  simp [hlen7]

/-- Witness for C9: the fresh two-player game dealt from the 28-tile stock
ends with 7 tiles per hand and 14 in stock. -/
theorem c9_deal_counts_witness :
    (2 ≤ gameC4.players.length) ∧ (gameC4.players.length ≤ 4) ∧
    (gameC4.players.all fun p => p.hand.isEmpty) = true ∧
    gameC4.stock.length = 28 ∧ TilesDistinct gameC4.stock ∧
    ∃ g2, gameC4.deal = some g2 ∧
      (g2.players.all fun p => p.hand.length == 7) = true ∧
      g2.stock.length = 28 - 7 * gameC4.players.length :=
  ⟨by decide, by decide, by decide, by decide, by decide,
   c9_deal_counts gameC4 (by decide) (by decide) (by decide) (by decide) (by decide)⟩
